import Mathlib

/-!
Verification development for the grammergen repository (src/grammergen.hpp).

The C++ code represents a grammar expression as a class hierarchy rooted at
`grammer`: every node owns two nullable child pointers `first` and `second`
(`std::shared_ptr<grammer>`), and the concrete subclasses are `join`
(concatenation, symbol "+"), `or_` (alternation, symbol "|"), `optional`
(symbol "?") and `word` (a literal with a string payload).

The shallow embedding below represents a node pointer as the inductive type
`GTree`: the constructor `GTree.null` models the null `shared_ptr`, and
`GTree.node k f s` models a heap node of kind `k` whose `first` and `second`
pointers are `f` and `s`.  Strings (`std::string_view`) are modelled as
`List Char`, `double` fitness values as `ℚ` (every value produced by the
program's scoring is an integer count or 1.0, so the embedding is exact),
and `std::size_t` counters as `Nat`.
-/

namespace Grammergen

/-- The dynamic type of a `grammer` node: `join`, `or_`, `optional` or
`word` with its literal payload (the `impl_type::str` member). -/
inductive Kind where
  | join : Kind
  | or_ : Kind
  | optional : Kind
  | word : List Char → Kind
deriving DecidableEq, Repr

/-- A `std::shared_ptr<grammer>` value: either null, or a node carrying a
kind and the two child pointers `first` and `second`. -/
inductive GTree where
  | null : GTree
  | node : Kind → GTree → GTree → GTree
deriving DecidableEq, Repr

/-- From `grammer::operand_number` overrides: `join` and `or_` report 2,
`optional` reports 1 and `word` reports 0. -/
def operand_number : Kind → Nat
  | .join => 2
  | .or_ => 2
  | .optional => 1
  | .word _ => 0

/-- From `grammer::size` and `optional::size`.  The base implementation
(used by `join`, `or_` and `word`, which does not override it) returns
`1 + first->size() + second->size()`, a null child contributing nothing.
`optional::size` overrides it as `1 + 2 * first->size()`, ignoring `second`.
A null pointer itself has no size (the C++ guards every dereference with
`if (first)` / `if (second)`). -/
def GTree.size : GTree → Nat
  | .null => 0
  | .node .optional f _ => 1 + 2 * f.size
  | .node _ f s => 1 + f.size + s.size

/-- The per-evaluation counters of `grammergen::context`. -/
structure Context where
  match_count : Nat
  compare_count : Nat
deriving DecidableEq, Repr

/-- From the `parse` overrides of `word`, `join`, `or_` and `optional`.
Every override first executes `ctx.compare_count += size();`.
`word::parse` compares the payload with the equal-length prefix of the
input and on success emits one candidate, the input with that prefix
removed, then adds the number of candidates (0 or 1) to `ctx.match_count`.
`join::parse` feeds every residual of `first` into `second` (the C++ guard
`if (first && second)` is subsumed here because parsing a null child yields
no residual and leaves the context unchanged, which matches skipping the
loop).  `or_::parse` concatenates the residuals of `first` and `second`,
and `optional::parse` appends the unconsumed input itself to the residuals
of `first`; in both, a null child's loop is skipped, which again equals
parsing `GTree.null`.  The context is threaded through the recursive calls
in the same order the C++ loops run them. -/
def GTree.parse : GTree → List Char → Context → List (List Char) × Context
  | .null, _, ctx => ([], ctx)
  | .node k f s, str, ctx =>
    let ctx := { ctx with compare_count := ctx.compare_count + (GTree.node k f s).size }
    match k with
    | .word w =>
      let candidates := if str.take w.length = w then [str.drop w.length] else []
      (candidates, { ctx with match_count := ctx.match_count + candidates.length })
    | .join =>
      let res := f.parse str ctx
      res.1.foldl
        (fun acc rest =>
          let inner := s.parse rest acc.2
          (acc.1 ++ inner.1, inner.2))
        ([], res.2)
    | .or_ =>
      let res1 := f.parse str ctx
      let res2 := s.parse str res1.2
      (res1.1 ++ res2.1, res2.2)
    | .optional =>
      let res1 := f.parse str ctx
      (res1.1 ++ [str], res1.2)

/-- From the static `grammer::match`: returns false on an empty candidate
list, returns false as soon as some candidate is non-empty, and returns
true otherwise (so: non-empty list, every candidate empty). -/
def grammer_match (candidates : List (List Char)) : Bool :=
  if candidates = [] then false
  else candidates.all (fun c => c = [])

/-- From `grammer::evaluate`: parse with a fresh context; if `match` holds
on the candidates return 1.0, otherwise return `ctx.match_count`. -/
def GTree.evaluate (t : GTree) (str : List Char) : ℚ :=
  let res := t.parse str ⟨0, 0⟩
  if grammer_match res.1 then 1 else (res.2.match_count : ℚ)

example : (GTree.node (.word ['a']) .null .null).parse ['a','b'] ⟨0,0⟩
    = ([['b']], ⟨1, 1⟩) := by decide

example : (GTree.node .join (.node (.word ['f','o','o']) .null .null)
    (.node (.word ['b','a','r']) .null .null)).parse
      ['f','o','o','b','a','r'] ⟨0,0⟩ = ([[]], ⟨2, 5⟩) := by decide

example : grammer_match ((GTree.node .optional
    (.node (.word ['a']) .null .null) .null).parse ['a'] ⟨0,0⟩).1 = false := by
  decide

/-- Characterization of `grammer_match`: it is true exactly on a non-empty
candidate list all of whose candidates are empty. -/
theorem grammer_match_iff (cs : List (List Char)) :
    grammer_match cs = true ↔ (cs ≠ [] ∧ ∀ c ∈ cs, c = []) := by
  unfold grammer_match
  by_cases h : cs = [] <;> simp [h, List.all_eq_true]

/-- C1 (counterexample): for the tree `optional(word "a")` on input `"a"`,
the residual sequence is non-empty and contains an empty suffix, yet
`grammer::match` returns false (the residual `"a"` from the skip branch is
non-empty, and `match` requires every residual to be empty). -/
theorem c1_match_counterexample :
    ((GTree.node .optional (.node (.word ['a']) .null .null) .null).parse
        ['a'] ⟨0, 0⟩).1 ≠ [] ∧
    [] ∈ ((GTree.node .optional (.node (.word ['a']) .null .null) .null).parse
        ['a'] ⟨0, 0⟩).1 ∧
    grammer_match ((GTree.node .optional (.node (.word ['a']) .null .null)
        .null).parse ['a'] ⟨0, 0⟩).1 = false := by
  decide

/-- C1 (amended): for every grammar tree and input, full-string acceptance
(`match`) holds iff the sequence of residual suffixes returned by `parse`
is non-empty and every residual in it is empty. -/
theorem c1_match_amended (t : GTree) (s : List Char) (ctx : Context) :
    grammer_match (t.parse s ctx).1 = true ↔
      ((t.parse s ctx).1 ≠ [] ∧ ∀ c ∈ (t.parse s ctx).1, c = []) :=
  grammer_match_iff _

/-- C2 (counterexample): for the tree `word "a"` on input `"ab"`, the full
match fails (residual `"b"` is non-empty) yet `evaluate` returns exactly
1.0, because the fallback value `ctx.match_count` is 1; so `evaluate = 1.0`
does not imply a full match. -/
theorem c2_evaluate_counterexample :
    (GTree.node (.word ['a']) .null .null).evaluate ['a', 'b'] = 1 ∧
    grammer_match ((GTree.node (.word ['a']) .null .null).parse
        ['a', 'b'] ⟨0, 0⟩).1 = false := by
  decide

/-- C2 (amended): `evaluate` returns 1.0 whenever the full-match predicate
holds, and otherwise returns the context's `match_count`; consequently
`evaluate = 1.0` holds iff the tree fully matches or the accumulated
`match_count` equals 1, so the forward direction of the claimed
equivalence fails. -/
theorem c2_evaluate_amended (t : GTree) (s : List Char) :
    (grammer_match (t.parse s ⟨0, 0⟩).1 = true → t.evaluate s = 1) ∧
    (grammer_match (t.parse s ⟨0, 0⟩).1 = false →
      t.evaluate s = ((t.parse s ⟨0, 0⟩).2.match_count : ℚ)) ∧
    (t.evaluate s = 1 ↔
      (grammer_match (t.parse s ⟨0, 0⟩).1 = true ∨
        (t.parse s ⟨0, 0⟩).2.match_count = 1)) := by
  unfold GTree.evaluate
  cases h : grammer_match (t.parse s ⟨0, 0⟩).1 <;>
    simp [h, Nat.cast_eq_one]

/-- C2 (witness): the amended theorem evaluated at the tree `word "a"` and
input `"abc"`, where the match fails and `evaluate` returns the
`match_count` of 1. -/
theorem c2_evaluate_witness :
    (grammer_match ((GTree.node (.word ['a']) .null .null).parse
        ['a', 'b', 'c'] ⟨0, 0⟩).1 = true →
      (GTree.node (.word ['a']) .null .null).evaluate ['a', 'b', 'c'] = 1) ∧
    (grammer_match ((GTree.node (.word ['a']) .null .null).parse
        ['a', 'b', 'c'] ⟨0, 0⟩).1 = false →
      (GTree.node (.word ['a']) .null .null).evaluate ['a', 'b', 'c'] =
        (((GTree.node (.word ['a']) .null .null).parse
          ['a', 'b', 'c'] ⟨0, 0⟩).2.match_count : ℚ)) ∧
    ((GTree.node (.word ['a']) .null .null).evaluate ['a', 'b', 'c'] = 1 ↔
      (grammer_match ((GTree.node (.word ['a']) .null .null).parse
          ['a', 'b', 'c'] ⟨0, 0⟩).1 = true ∨
        ((GTree.node (.word ['a']) .null .null).parse
          ['a', 'b', 'c'] ⟨0, 0⟩).2.match_count = 1)) :=
  c2_evaluate_amended (GTree.node (.word ['a']) .null .null) ['a', 'b', 'c']

/-- C5 (counterexample): a literal node (`word "a"` with no children) has
structural cost 1, not 16, and its cost is not strictly larger than 1:
the C++ `word` class never overrides `grammer::size`, so a childless
literal costs exactly 1. -/
theorem c5_size_counterexample :
    GTree.size (.node (.word ['a']) .null .null) = 1 ∧
    GTree.size (.node (.word ['a']) .null .null) ≠ 16 ∧
    ¬ 1 < GTree.size (.node (.word ['a']) .null .null) := by
  decide

/-- C5 (amended): the structural cost satisfies: a childless literal costs
exactly 1 (the fixed literal constant in the code is 1, not 16);
a concatenation or alternation node costs `1 + size first + size second`;
an optional node costs `1 + 2 * size first` (its `second` is ignored). -/
theorem c5_size_amended (p : List Char) (a b : GTree) :
    GTree.size (.node (.word p) .null .null) = 1 ∧
    GTree.size (.node .join a b) = 1 + a.size + b.size ∧
    GTree.size (.node .or_ a b) = 1 + a.size + b.size ∧
    GTree.size (.node .optional a b) = 1 + 2 * a.size :=
  ⟨rfl, rfl, rfl, rfl⟩

/-- From `optimize_tree`'s local `impl::optimize_node`: a null pointer is
left alone; a 0-operand node has both children cleared; a 1-operand node
recurses into `first` and clears `second`; a 2-operand node recurses into
both children. -/
def optimize_node : GTree → GTree
  | .null => .null
  | .node k f s =>
    if operand_number k = 0 then .node k .null .null
    else if operand_number k = 1 then .node k (optimize_node f) .null
    else .node k (optimize_node f) (optimize_node s)

/-- From `optimize_tree`: applies `impl::optimize_node` to the root. -/
def optimize_tree (root : GTree) : GTree := optimize_node root

/-- The number of non-null child slots of a node (0 for the null pointer). -/
def nonEmptyChildCount : GTree → Nat
  | .null => 0
  | .node _ f s => (if f = .null then 0 else 1) + (if s = .null then 0 else 1)

/-- Decides the claimed invariant: at every node of the tree, the count of
non-empty child slots equals the node's `operand_number`. -/
def allNodesArityExact : GTree → Bool
  | .null => true
  | .node k f s =>
    (nonEmptyChildCount (.node k f s) == operand_number k)
      && allNodesArityExact f && allNodesArityExact s

/-- Decides the invariant that `optimize_tree` actually establishes: at
every node, populated children are confined to the node's arity slots
(a 0-operand node has both children null, a 1-operand node has a null
`second`); nothing forces a missing child to be filled in. -/
def allNodesArityConfined : GTree → Bool
  | .null => true
  | .node k f s =>
    (decide (operand_number k = 0 → f = GTree.null ∧ s = GTree.null))
      && (decide (operand_number k = 1 → s = GTree.null))
      && allNodesArityConfined f && allNodesArityConfined s

/-- Decides that at every node the count of non-empty children is at most
the node's `operand_number`. -/
def allNodesArityLe : GTree → Bool
  | .null => true
  | .node k f s =>
    (decide (nonEmptyChildCount (.node k f s) ≤ operand_number k))
      && allNodesArityLe f && allNodesArityLe s

theorem optimize_node_confined (t : GTree) :
    allNodesArityConfined (optimize_node t) = true := by
  induction t with
  | null => rfl
  | node k f s ihf ihs =>
    cases k <;>
      simp [optimize_node, allNodesArityConfined, operand_number, ihf, ihs]

theorem optimize_node_le (t : GTree) :
    allNodesArityLe (optimize_node t) = true := by
  induction t with
  | null => rfl
  | node k f s ihf ihs =>
    cases k <;>
      simp [optimize_node, allNodesArityLe, operand_number,
        nonEmptyChildCount, ihf, ihs] <;>
      (repeat' split) <;> simp

/-- C6 (counterexample): the tree consisting of a single `join` node with
both children null (producible by `generate_tree(1)`) is a fixed point of
`optimize_tree`, and its root has 0 non-empty children while its arity is
2, so the claimed equality of child count and arity fails. -/
theorem c6_optimize_counterexample :
    allNodesArityExact (optimize_tree (.node .join .null .null)) = false ∧
    optimize_tree (.node .join .null .null) = .node .join .null .null := by
  decide

/-- C6 (amended): after `optimize_tree`, every node's populated children
are confined to its arity slots — a 0-arity node has both children
cleared, a 1-arity node keeps at most `first` — so the count of non-empty
children is at most (not necessarily equal to) the node's arity; missing
children are never created. -/
theorem c6_optimize_amended (t : GTree) :
    allNodesArityConfined (optimize_tree t) = true ∧
    allNodesArityLe (optimize_tree t) = true :=
  ⟨optimize_node_confined t, optimize_node_le t⟩

/-- From the `clone` overrides: `join::clone` and `or_::clone` deep-copy
both children (a null child stays null); `optional::clone` deep-copies
`first` and passes an empty `second`; `word::clone` rebuilds a fresh
literal from the payload and drops any children. -/
def GTree.clone : GTree → GTree
  | .null => .null
  | .node (.word w) _ _ => .node (.word w) .null .null
  | .node .optional f _ => .node .optional f.clone .null
  | .node .join f s => .node .join f.clone s.clone
  | .node .or_ f s => .node .or_ f.clone s.clone

/-- The number of nodes of a tree: exactly the length of the list built by
`get_nodes`, which pushes every non-null node in preorder. -/
def GTree.nodeCount : GTree → Nat
  | .null => 0
  | .node _ f s => 1 + f.nodeCount + s.nodeCount

/-- A step into a node's `first` or `second` child slot. -/
inductive Dir where
  | fst : Dir
  | snd : Dir
deriving DecidableEq, Repr

/-- The node of a tree reached by a path of child steps, if the path stays
on non-null nodes; this addresses exactly the node references that
`get_nodes` collects. -/
def subtreeAt : GTree → List Dir → Option GTree
  | .null, _ => Option.none
  | t, [] => Option.some t
  | .node _ f _, .fst :: p => subtreeAt f p
  | .node _ _ s, .snd :: p => subtreeAt s p

/-- Replacing the node (together with its subtree) at a path; used to model
`std::swap` on the two node slots picked by `create_crossed_tree`. -/
def replaceAt : GTree → List Dir → GTree → GTree
  | _, [], r => r
  | .null, _ :: _, _ => .null
  | .node k f s, .fst :: p, r => .node k (replaceAt f p r) s
  | .node k f s, .snd :: p, r => .node k f (replaceAt s p r)

/-- From `create_crossed_tree`: clone both parents, pick one node slot in
each clone (here addressed by the paths `pa` and `pb` into the respective
clone, as selected via `get_nodes`), swap the two slots, and return both
clones.  Invalid paths (never produced by `get_nodes`) leave the clones
untouched. -/
def create_crossed_tree (a_root b_root : GTree) (pa pb : List Dir) :
    GTree × GTree :=
  let a_clone := a_root.clone
  let b_clone := b_root.clone
  match subtreeAt a_clone pa, subtreeAt b_clone pb with
  | Option.some ta, Option.some tb =>
    (replaceAt a_clone pa tb, replaceAt b_clone pb ta)
  | _, _ => (a_clone, b_clone)

/-- Cloning an arity-confined tree is the identity on the tree value (the
C++ clone only drops children from slots that arity-confined trees do not
populate). -/
theorem clone_eq_of_confined (t : GTree)
    (h : allNodesArityConfined t = true) : t.clone = t := by
  induction t with
  | null => rfl
  | node k f s ihf ihs =>
    cases k <;>
      simp_all [GTree.clone, allNodesArityConfined, operand_number]

/-- Replacing the subtree at a valid path changes the node count by the
difference between the new subtree and the replaced one. -/
theorem nodeCount_replaceAt (t : GTree) (p : List Dir) (u r : GTree)
    (h : subtreeAt t p = Option.some u) :
    (replaceAt t p r).nodeCount + u.nodeCount = t.nodeCount + r.nodeCount := by
  induction p generalizing t with
  | nil =>
    cases t with
    | null => simp [subtreeAt] at h
    | node k f s =>
      simp [subtreeAt] at h
      subst h
      simp [replaceAt]
      omega
  | cons d p ih =>
    cases t with
    | null => simp [subtreeAt] at h
    | node k f s =>
      cases d with
      | fst =>
        have := ih f (by simpa [subtreeAt] using h)
        simp [replaceAt, GTree.nodeCount]
        omega
      | snd =>
        have := ih s (by simpa [subtreeAt] using h)
        simp [replaceAt, GTree.nodeCount]
        omega

/-- C8 (counterexample): cloning is not node-count preserving on arbitrary
trees: for a literal node that still carries a child (as mutation can
produce before canonicalization), `word::clone` drops the child, so the
two offspring of `create_crossed_tree` together have fewer nodes than the
two parents together. -/
theorem c8_crossover_counterexample :
    (create_crossed_tree
        (.node (.word ['a']) (.node (.word ['b']) .null .null) .null)
        (.node (.word ['c']) .null .null) [] []).1.nodeCount +
      (create_crossed_tree
        (.node (.word ['a']) (.node (.word ['b']) .null .null) .null)
        (.node (.word ['c']) .null .null) [] []).2.nodeCount = 2 ∧
    (GTree.node (.word ['a']) (.node (.word ['b']) .null .null)
        .null).nodeCount +
      (GTree.node (.word ['c']) .null .null).nodeCount = 3 := by
  decide

/-- C8 (amended): for arity-confined parents (the only trees the engine
ever feeds to crossover, since every individual is canonicalized) and any
valid crossover points, the combined node count of the two offspring
equals the combined node count of the parents, and cloning leaves the
parents' tree values unchanged. -/
theorem c8_crossover_amended (a b ta tb : GTree) (pa pb : List Dir)
    (ha : allNodesArityConfined a = true)
    (hb : allNodesArityConfined b = true)
    (hpa : subtreeAt a pa = Option.some ta)
    (hpb : subtreeAt b pb = Option.some tb) :
    (create_crossed_tree a b pa pb).1.nodeCount +
      (create_crossed_tree a b pa pb).2.nodeCount =
        a.nodeCount + b.nodeCount ∧
    a.clone = a ∧ b.clone = b := by
  have hca := clone_eq_of_confined a ha
  have hcb := clone_eq_of_confined b hb
  refine ⟨?_, hca, hcb⟩
  have h1 := nodeCount_replaceAt a pa ta tb hpa
  have h2 := nodeCount_replaceAt b pb tb ta hpb
  simp only [create_crossed_tree, hca, hcb, hpa, hpb]
  omega

/-- C8 (witness): the amended theorem evaluated at the parents
`join(word "a", word "b")` and `word "c"` with crossover points at the
first child of the former and the root of the latter. -/
theorem c8_crossover_witness :
    (create_crossed_tree
        (.node .join (.node (.word ['a']) .null .null)
          (.node (.word ['b']) .null .null))
        (.node (.word ['c']) .null .null) [Dir.fst] []).1.nodeCount +
      (create_crossed_tree
        (.node .join (.node (.word ['a']) .null .null)
          (.node (.word ['b']) .null .null))
        (.node (.word ['c']) .null .null) [Dir.fst] []).2.nodeCount =
      (GTree.node .join (.node (.word ['a']) .null .null)
        (.node (.word ['b']) .null .null)).nodeCount +
        (GTree.node (.word ['c']) .null .null).nodeCount ∧
    (GTree.node .join (.node (.word ['a']) .null .null)
      (.node (.word ['b']) .null .null)).clone =
      .node .join (.node (.word ['a']) .null .null)
        (.node (.word ['b']) .null .null) ∧
    (GTree.node (.word ['c']) .null .null).clone =
      .node (.word ['c']) .null .null :=
  c8_crossover_amended
    (.node .join (.node (.word ['a']) .null .null)
      (.node (.word ['b']) .null .null))
    (.node (.word ['c']) .null .null)
    (.node (.word ['a']) .null .null)
    (.node (.word ['c']) .null .null)
    [Dir.fst] [] (by decide) (by decide) (by decide) (by decide)

/-- From `word::parse`, line
`std::string_view(str.data(), impl.str.size())`: the prefix comparison
builds a view over the input buffer that starts at the input's data
pointer and spans exactly payload-length bytes, regardless of how long the
input itself is. -/
def word_view_length (payload : List Char) : Nat := payload.length

/-- A byte range of the given length starting at the input buffer's data
pointer stays inside the buffer iff the length is at most the input's
length. -/
def view_in_bounds (input : List Char) (len : Nat) : Prop :=
  len ≤ input.length

instance (input : List Char) (len : Nat) :
    Decidable (view_in_bounds input len) := by
  unfold view_in_bounds; infer_instance

/-- C10 (confirmed): the view built by the literal's prefix comparison is
in bounds exactly when the input is at least as long as the payload, so on
every input strictly shorter than the payload the comparison reads past
the end of the input buffer. -/
theorem c10_word_view_bounds (payload input : List Char) :
    (view_in_bounds input (word_view_length payload) ↔
      payload.length ≤ input.length) ∧
    (input.length < payload.length →
      ¬ view_in_bounds input (word_view_length payload)) := by
  refine ⟨Iff.rfl, fun h hb => ?_⟩
  unfold view_in_bounds word_view_length at hb
  omega

/-- C10 (witness): with payload `"ab"` and the one-byte input `"a"`, the
two-byte view runs past the end of the input. -/
theorem c10_word_view_bounds_witness :
    ¬ view_in_bounds ['a'] (word_view_length ['a', 'b']) :=
  (c10_word_view_bounds ['a', 'b'] ['a']).2 (by decide)

/-- From the walk in `select_individual`: subtract each weight from `rand`
in list order and return the first individual at which `rand` drops to
zero or below; none if the walk runs off the end of the list. -/
def walk_select : List (GTree × ℚ) → ℚ → Option GTree
  | [], _ => Option.none
  | (a, w) :: rest, r =>
    if r - w ≤ 0 then Option.some a else walk_select rest (r - w)

/-- From `select_individual`: throws `std::logic_error` on an empty list
(modelled as `Except.error` with the source's message); computes the
weight sum; if it is zero returns `random_element(individuals)` (the
uniformly drawn index is modelled by the oracle `u`, reduced modulo the
length); otherwise draws `rand` uniformly in `[0, sum]` (modelled by the
oracle `r`) and walks the list subtracting weights, falling back to the
first individual if the walk runs off the end. -/
def select_individual (individuals : List (GTree × ℚ)) (u : Nat) (r : ℚ) :
    Except String GTree :=
  match individuals with
  | [] => Except.error "Individuals number must be not empty."
  | x :: xs =>
    let sum := ((x :: xs).map Prod.snd).sum
    if sum = 0 then
      Except.ok ((x :: xs).getD (u % (x :: xs).length) x).1
    else
      match walk_select (x :: xs) r with
      | Option.some a => Except.ok a
      | Option.none => Except.ok x.1

/-- The sum of the first `n` weights of the individual list. -/
def takeWeightSum (individuals : List (GTree × ℚ)) (n : Nat) : ℚ :=
  ((individuals.take n).map Prod.snd).sum

theorem takeWeightSum_cons (x : GTree × ℚ) (l : List (GTree × ℚ)) (n : Nat) :
    takeWeightSum (x :: l) (n + 1) = x.2 + takeWeightSum l n := by
  simp [takeWeightSum]

/-- The walk stops at the first index whose weight-sum reaches the drawn
value, provided the weights are non-negative and the draw does not exceed
their total. -/
theorem walk_select_spec (individuals : List (GTree × ℚ)) (r : ℚ)
    (hpos : ∀ p ∈ individuals, 0 ≤ p.2)
    (hne : individuals ≠ [])
    (hr : r ≤ (individuals.map Prod.snd).sum) :
    ∃ i, ∃ h : i < individuals.length,
      walk_select individuals r = Option.some (individuals.get ⟨i, h⟩).1 ∧
      r ≤ takeWeightSum individuals (i + 1) ∧
      ∀ j < i, takeWeightSum individuals (j + 1) < r := by
  induction individuals generalizing r with
  | nil => exact absurd rfl hne
  | cons x rest ih =>
    by_cases hw : r - x.2 ≤ 0
    · refine ⟨0, by simp, ?_, ?_, by omega⟩
      · simp [walk_select, hw]
      · rw [takeWeightSum_cons]
        simp [takeWeightSum]
        linarith
    · push_neg at hw
      cases rest with
      | nil =>
        exfalso
        simp [List.map, List.sum_cons] at hr
        linarith
      | cons y ys =>
        have hsum : r - x.2 ≤ ((y :: ys).map Prod.snd).sum := by
          simp [List.sum_cons] at hr ⊢
          linarith
        obtain ⟨i, hi, heq, hub, hlb⟩ :=
          ih (r - x.2) (fun p hp => hpos p (List.mem_cons_of_mem x hp))
            (by simp) hsum
        refine ⟨i + 1, by simpa using Nat.succ_lt_succ hi, ?_, ?_, ?_⟩
        · have hstep : walk_select (x :: y :: ys) r =
              walk_select (y :: ys) (r - x.2) := by
            simp [walk_select]
            intro hc
            linarith
          rw [hstep, heq]
          rfl
        · rw [takeWeightSum_cons]
          linarith
        · intro j hj
          cases j with
          | zero =>
            simp [takeWeightSum]
            linarith
          | succ j' =>
            rw [takeWeightSum_cons]
            have := hlb j' (by omega)
            linarith

/-- C9 (confirmed): `select_individual` fails fast on an empty list; on a
non-empty list with zero weight sum it returns the uniformly drawn
individual rather than erroring; otherwise (non-negative weights, draw in
`[0, sum]`) it returns precisely the individual reached by walking the
list and subtracting weights until the drawn value is exhausted: the first
index whose weight-sum reaches `r`. -/
theorem c9_select_individual (individuals : List (GTree × ℚ)) (u : Nat)
    (r : ℚ) :
    (select_individual [] u r =
      Except.error "Individuals number must be not empty.") ∧
    (individuals ≠ [] → (individuals.map Prod.snd).sum = 0 →
      ∃ h : u % individuals.length < individuals.length,
        select_individual individuals u r =
          Except.ok (individuals.get ⟨u % individuals.length, h⟩).1) ∧
    ((∀ p ∈ individuals, 0 ≤ p.2) → individuals ≠ [] →
      (individuals.map Prod.snd).sum ≠ 0 → 0 ≤ r →
      r ≤ (individuals.map Prod.snd).sum →
      ∃ i, ∃ h : i < individuals.length,
        select_individual individuals u r =
          Except.ok (individuals.get ⟨i, h⟩).1 ∧
        r ≤ takeWeightSum individuals (i + 1) ∧
        ∀ j < i, takeWeightSum individuals (j + 1) < r) := by
  refine ⟨rfl, ?_, ?_⟩
  · intro hne hsum
    match individuals with
    | [] => exact absurd rfl hne
    | x :: xs =>
      have hlt : u % (x :: xs).length < (x :: xs).length :=
        Nat.mod_lt _ (by simp)
      refine ⟨hlt, ?_⟩
      simp only [select_individual]
      rw [if_pos hsum, List.getD_eq_getElem (x :: xs) x hlt]
      simp
  · intro hpos hne hsum hr0 hrS
    obtain ⟨i, hi, heq, hub, hlb⟩ := walk_select_spec individuals r hpos hne hrS
    refine ⟨i, hi, ?_, hub, hlb⟩
    match individuals with
    | x :: xs =>
      simp only [select_individual]
      rw [if_neg hsum, heq]

/-- C9 (witness): with individuals of weights 1 and 2, a zero draw index
and `r = 2`, selection walks past the first individual (weight-sum 1 < 2)
and returns the second (weight-sum 3 ≥ 2). -/
theorem c9_select_individual_witness :
    ∃ i, ∃ h : i < ([(GTree.node (.word ['x']) .null .null, (1 : ℚ)),
        (GTree.node (.word ['y']) .null .null, (2 : ℚ))]).length,
      select_individual [(GTree.node (.word ['x']) .null .null, (1 : ℚ)),
          (GTree.node (.word ['y']) .null .null, (2 : ℚ))] 0 2 =
        Except.ok (([(GTree.node (.word ['x']) .null .null, (1 : ℚ)),
          (GTree.node (.word ['y']) .null .null, (2 : ℚ))]).get ⟨i, h⟩).1 ∧
      (2 : ℚ) ≤ takeWeightSum [(GTree.node (.word ['x']) .null .null, (1 : ℚ)),
        (GTree.node (.word ['y']) .null .null, (2 : ℚ))] (i + 1) ∧
      ∀ j < i, takeWeightSum [(GTree.node (.word ['x']) .null .null, (1 : ℚ)),
        (GTree.node (.word ['y']) .null .null, (2 : ℚ))] (j + 1) < 2 :=
  (c9_select_individual [(GTree.node (.word ['x']) .null .null, (1 : ℚ)),
      (GTree.node (.word ['y']) .null .null, (2 : ℚ))] 0 2).2.2
    (by intro p hp; fin_cases hp <;> norm_num) (by simp) (by norm_num)
    (by norm_num) (by norm_num)

/-- From `generic_programming::run`: the loop body after the initial
`update`.  The successive best-fitness values returned by `update()` are
supplied by the oracle `evals` (the `k`-th call returns `evals k`); `prev`
and `unmod` are the loop's `prev_eval` and `unmodified_count`; the result
is the index of the `update` call at which the loop breaks, or none if
`fuel` iterations did not reach the break. -/
def run_from (maxU : Nat) (evals : Nat → ℚ) :
    Nat → Nat → ℚ → Nat → Option Nat
  | 0, _, _, _ => Option.none
  | fuel + 1, k, prev, unmod =>
    let e := evals k
    if e = prev then
      if unmod + 1 > maxU then Option.some k
      else run_from maxU evals fuel (k + 1) prev (unmod + 1)
    else run_from maxU evals fuel (k + 1) e 0

/-- From `generic_programming::run`: `prev_eval` starts as the result of
the initial `update()` (call index 0) and the loop starts with call
index 1 and a zero stagnation counter. -/
def run_stop (maxU : Nat) (evals : Nat → ℚ) (fuel : Nat) : Option Nat :=
  run_from maxU evals fuel 1 (evals 0) 0

/-- Along the loop, `prev_eval` always equals the previous call's value,
so a break can only happen at a call whose value equals the previous
one. -/
theorem run_from_some_eq (maxU : Nat) (evals : Nat → ℚ) :
    ∀ fuel k unmod m, 1 ≤ k →
      run_from maxU evals fuel k (evals (k - 1)) unmod = Option.some m →
      evals m = evals (m - 1) := by
  intro fuel
  induction fuel with
  | zero => intro k unmod m _ h; simp [run_from] at h
  | succ fuel ih =>
    intro k unmod m hk h
    simp only [run_from] at h
    by_cases he : evals k = evals (k - 1)
    · rw [if_pos he] at h
      by_cases hu : unmod + 1 > maxU
      · rw [if_pos hu] at h
        cases h
        exact he
      · rw [if_neg hu] at h
        have hk' : evals ((k + 1) - 1) = evals (k - 1) := by
          simpa using he
        rw [← hk'] at h
        exact ih (k + 1) (unmod + 1) m (by omega) h
    · rw [if_neg he] at h
      have hk' : evals k = evals ((k + 1) - 1) := by simp
      rw [hk'] at h
      exact ih (k + 1) 0 m (by omega) h

/-- With a zero stagnation threshold the loop breaks exactly at the first
call whose value repeats the previous one (soundness direction). -/
theorem run_from_zero_first (evals : Nat → ℚ) :
    ∀ fuel k m, 1 ≤ k →
      run_from 0 evals fuel k (evals (k - 1)) 0 = Option.some m →
      (evals m = evals (m - 1) ∧
        ∀ j, k ≤ j → j < m → evals j ≠ evals (j - 1)) := by
  intro fuel
  induction fuel with
  | zero => intro k m _ h; simp [run_from] at h
  | succ fuel ih =>
    intro k m hk h
    simp only [run_from] at h
    by_cases he : evals k = evals (k - 1)
    · rw [if_pos he] at h
      simp at h
      subst h
      exact ⟨he, fun j hj1 hj2 => absurd (Nat.lt_of_le_of_lt hj1 hj2)
        (Nat.lt_irrefl k)⟩
    · rw [if_neg he] at h
      have hk' : evals k = evals ((k + 1) - 1) := by simp
      rw [hk'] at h
      obtain ⟨h1, h2⟩ := ih (k + 1) m (by omega) h
      refine ⟨h1, fun j hj1 hj2 => ?_⟩
      rcases Nat.eq_or_lt_of_le hj1 with rfl | hlt
      · exact he
      · exact h2 j hlt hj2

/-- With a zero stagnation threshold the loop does break at the first
repeating call, given enough fuel (completeness direction). -/
theorem run_from_zero_complete (evals : Nat → ℚ) :
    ∀ fuel k m, 1 ≤ k → k ≤ m → m < k + fuel →
      evals m = evals (m - 1) →
      (∀ j, k ≤ j → j < m → evals j ≠ evals (j - 1)) →
      run_from 0 evals fuel k (evals (k - 1)) 0 = Option.some m := by
  intro fuel
  induction fuel with
  | zero => intro k m _ hkm hm _ _; omega
  | succ fuel ih =>
    intro k m hk hkm hm heq hfirst
    simp only [run_from]
    rcases Nat.eq_or_lt_of_le hkm with rfl | hlt
    · rw [if_pos heq]
      simp
    · have hne : evals k ≠ evals (k - 1) := hfirst k (Nat.le_refl k) hlt
      rw [if_neg hne]
      have hk' : evals k = evals ((k + 1) - 1) := by simp
      rw [hk']
      exact ih (k + 1) m (by omega) (by omega) (by omega) heq
        (fun j hj1 hj2 => hfirst j (by omega) hj2)

/-- C7 (counterexample): with `max_unmodified_count = 0` and best-fitness
values 5, 3, 3, ... the first generation (value 3) does not improve on the
initial evaluation (value 5), yet `run` does not stop there: it stops only
at call 2, when the value exactly repeats. -/
theorem c7_run_counterexample :
    run_stop 0 (fun k => if k = 0 then (5 : ℚ) else 3) 10 = Option.some 2 ∧
    (fun k => if k = 0 then (5 : ℚ) else 3) 1 <
      (fun k => if k = 0 then (5 : ℚ) else 3) 0 ∧
    (2 : Nat) ≠ 1 := by
  constructor
  · decide
  · constructor
    · norm_num
    · decide

/-- C7 (amended): `run` breaks only at a call whose best fitness is
exactly equal to the previous call's (a strictly smaller value resets the
counter and continues); with `max_unmodified_count = 0` it stops exactly
at the first call whose best fitness equals the previous one. -/
theorem c7_run_amended (maxU : Nat) (evals : Nat → ℚ) (fuel m : Nat) :
    (run_stop maxU evals fuel = Option.some m →
      evals m = evals (m - 1)) ∧
    (run_stop 0 evals fuel = Option.some m →
      (evals m = evals (m - 1) ∧
        ∀ j, 1 ≤ j → j < m → evals j ≠ evals (j - 1))) ∧
    (1 ≤ m → m < 1 + fuel → evals m = evals (m - 1) →
      (∀ j, 1 ≤ j → j < m → evals j ≠ evals (j - 1)) →
      run_stop 0 evals fuel = Option.some m) := by
  refine ⟨?_, ?_, ?_⟩
  · intro h
    exact run_from_some_eq maxU evals fuel 1 0 m (Nat.le_refl 1) h
  · intro h
    exact run_from_zero_first evals fuel 1 m (Nat.le_refl 1) h
  · intro h1 h2 h3 h4
    exact run_from_zero_complete evals fuel 1 m (Nat.le_refl 1) h1 h2 h3 h4

/-- C7 (witness): for the constant fitness sequence 1, 1, 1, ... with
`max_unmodified_count = 0`, the loop stops at the very first repeated
value, call index 1. -/
theorem c7_run_amended_witness :
    run_stop 0 (fun _ => (1 : ℚ)) 5 = Option.some 1 :=
  (c7_run_amended 0 (fun _ => (1 : ℚ)) 5 1).2.2 (Nat.le_refl 1) (by omega)
    rfl (fun j hj1 hj2 => absurd (Nat.lt_of_le_of_lt hj1 hj2)
      (Nat.lt_irrefl 1))

/-- A heap cell for the pointer-level model of the mutation slot: a
`grammer` object's kind and the addresses of its `first` and `second`
children (`Option.none` models the null pointer).  The mutation-slot bug
is about shared-pointer identity, so this claim is settled on an explicit
heap rather than on value trees. -/
structure CNode where
  kind : Kind
  first : Option Nat
  second : Option Nat
deriving DecidableEq, Repr

/-- The heap: a list of allocated cells addressed by index.  Allocation
(`std::make_shared`) appends, so existing cells never move. -/
abbrev Heap := List CNode

/-- The value tree reachable from an address, with fuel bounding the
recursion depth (any acyclic heap is fully read with enough fuel). -/
def readTree : Nat → Heap → Nat → Option GTree
  | 0, _, _ => Option.none
  | fuel + 1, h, a =>
    match h.get? a with
    | Option.none => Option.none
    | Option.some n =>
      match (match n.first with
             | Option.none => Option.some GTree.null
             | Option.some c => readTree fuel h c),
            (match n.second with
             | Option.none => Option.some GTree.null
             | Option.some c => readTree fuel h c) with
      | Option.some f, Option.some s => Option.some (.node n.kind f s)
      | _, _ => Option.none

/-- From `get_nodes`: collects, in preorder, the address of every node
reachable from the root through non-null child pointers. -/
def heap_get_nodes : Nat → Heap → Nat → List Nat
  | 0, _, _ => []
  | fuel + 1, h, a =>
    a :: (match h.get? a with
      | Option.none => []
      | Option.some n =>
        (match n.first with
         | Option.some c => heap_get_nodes fuel h c
         | Option.none => []) ++
        (match n.second with
         | Option.some c => heap_get_nodes fuel h c
         | Option.none => []))

/-- From `mutate_node(std::shared_ptr<grammer> & node)`: read the
referenced node's children, allocate the freshly generated node (the
random result of `generate_node()` is the parameter `newKind`), hand it
the old children, and rebind the *variable* `node` to the new allocation.
Returns the extended heap and the variable's new pointer value.  The cell
of the originally referenced node is not modified. -/
def mutate_node (h : Heap) (node : Nat) (newKind : Kind) : Heap × Nat :=
  match h.get? node with
  | Option.none => (h, node)
  | Option.some n => (h ++ [⟨newKind, n.first, n.second⟩], h.length)

/-- From the mutation slot of `generic_programming::update`:
`auto node = random_select_node(clone); mutate_node(node);
next_generation.push_back(clone);`.  `random_select_node` returns the
selected `shared_ptr` *by value*, so the local `node` is a copy of the
pointer stored in the clone's tree and `mutate_node` rebinds only that
local copy.  `cloneRoot` is the root address of the cloned parent, `sel`
the uniformly drawn index into the collected node list, and `newKind` the
random kind from `generate_node()`.  Returns the heap after the slot and
the address pushed into `next_generation` (the clone root). -/
def mutation_slot (h : Heap) (cloneRoot : Nat) (sel : Nat) (newKind : Kind)
    (fuel : Nat) : Heap × Nat :=
  let nodes := heap_get_nodes fuel h cloneRoot
  let node := nodes.getD (sel % nodes.length) cloneRoot
  let res := mutate_node h node newKind
  (res.1, cloneRoot)

/-- The in-place point mutation that C3 describes, expressed on value
trees: the picked node's kind is replaced while its children and every
other node are preserved. -/
def claimed_mutate_at (t : GTree) (p : List Dir) (newKind : Kind) : GTree :=
  match subtreeAt t p with
  | Option.some (.node _ f s) => replaceAt t p (.node newKind f s)
  | _ => t

/-- Reading an address below the old heap length is unaffected by cells
appended behind it, as long as the old heap's pointers stay below the old
length. -/
theorem readTree_append (h ext : Heap)
    (hcl : ∀ n ∈ h, (∀ c ∈ n.first, c < h.length) ∧
      (∀ c ∈ n.second, c < h.length)) :
    ∀ fuel a, a < h.length →
      readTree fuel (h ++ ext) a = readTree fuel h a := by
  intro fuel
  induction fuel with
  | zero => intro a _; rfl
  | succ fuel ih =>
    intro a ha
    have hget : (h ++ ext).get? a = h.get? a := List.get?_append ha
    simp only [readTree, hget]
    cases hn : h.get? a with
    | none => rfl
    | some n =>
      have hmem : n ∈ h := List.get?_mem hn
      obtain ⟨h1, h2⟩ := hcl n hmem
      have hf : (match n.first with
          | Option.none => Option.some GTree.null
          | Option.some c => readTree fuel (h ++ ext) c) =
          (match n.first with
          | Option.none => Option.some GTree.null
          | Option.some c => readTree fuel h c) := by
        cases hc : n.first with
        | none => rfl
        | some c => exact ih c (h1 c (by rw [hc]; rfl))
      have hs : (match n.second with
          | Option.none => Option.some GTree.null
          | Option.some c => readTree fuel (h ++ ext) c) =
          (match n.second with
          | Option.none => Option.some GTree.null
          | Option.some c => readTree fuel h c) := by
        cases hc : n.second with
        | none => rfl
        | some c => exact ih c (h2 c (by rw [hc]; rfl))
      dsimp only
      rw [hf, hs]

/-- The mutation slot never changes the tree that the clone root reaches:
whatever node is selected and whatever kind `generate_node` produces, the
individual pushed into the next generation is the unmutated clone. -/
theorem mutation_slot_clone_unchanged (h : Heap) (cloneRoot sel : Nat)
    (newKind : Kind) (fuel readFuel : Nat)
    (hcl : ∀ n ∈ h, (∀ c ∈ n.first, c < h.length) ∧
      (∀ c ∈ n.second, c < h.length))
    (hroot : cloneRoot < h.length) :
    readTree readFuel (mutation_slot h cloneRoot sel newKind fuel).1 cloneRoot =
      readTree readFuel h cloneRoot ∧
    (mutation_slot h cloneRoot sel newKind fuel).2 = cloneRoot := by
  refine ⟨?_, rfl⟩
  simp only [mutation_slot, mutate_node]
  cases hn : h.get? (List.getD (heap_get_nodes fuel h cloneRoot)
      (sel % (heap_get_nodes fuel h cloneRoot).length) cloneRoot) with
  | none => rfl
  | some n => exact readTree_append h _ hcl readFuel cloneRoot hroot

/-- C3 (code_bug, evaluated at the failing input): for the cloned parent
`join(word "a", word "b")` laid out at heap addresses 2 (root), 0 and 1,
selecting the node at address 0 (index 1 of `get_nodes`) and drawing the
kind `optional` from `generate_node`, the mutation slot allocates the new
node but appends the clone *unchanged*: the tree read back from the clone
root still is `join(word "a", word "b")`, while the claimed in-place
mutation of the selected node would give
`join(optional(), word "b")`. -/
theorem c3_mutation_slot_noop :
    heap_get_nodes 10
      [(⟨.word ['a'], Option.none, Option.none⟩ : CNode),
        ⟨.word ['b'], Option.none, Option.none⟩,
        ⟨.join, Option.some 0, Option.some 1⟩] 2 = [2, 0, 1] ∧
    (mutation_slot
      [(⟨.word ['a'], Option.none, Option.none⟩ : CNode),
        ⟨.word ['b'], Option.none, Option.none⟩,
        ⟨.join, Option.some 0, Option.some 1⟩] 2 1 .optional 10).2 = 2 ∧
    (mutation_slot
      [(⟨.word ['a'], Option.none, Option.none⟩ : CNode),
        ⟨.word ['b'], Option.none, Option.none⟩,
        ⟨.join, Option.some 0, Option.some 1⟩] 2 1 .optional 10).1.length = 4 ∧
    readTree 10 (mutation_slot
      [(⟨.word ['a'], Option.none, Option.none⟩ : CNode),
        ⟨.word ['b'], Option.none, Option.none⟩,
        ⟨.join, Option.some 0, Option.some 1⟩] 2 1 .optional 10).1 2 =
      Option.some (.node .join (.node (.word ['a']) .null .null)
        (.node (.word ['b']) .null .null)) ∧
    readTree 10
      [(⟨.word ['a'], Option.none, Option.none⟩ : CNode),
        ⟨.word ['b'], Option.none, Option.none⟩,
        ⟨.join, Option.some 0, Option.some 1⟩] 2 =
      Option.some (.node .join (.node (.word ['a']) .null .null)
        (.node (.word ['b']) .null .null)) ∧
    claimed_mutate_at (.node .join (.node (.word ['a']) .null .null)
        (.node (.word ['b']) .null .null)) [Dir.fst] .optional =
      .node .join (.node .optional .null .null)
        (.node (.word ['b']) .null .null) ∧
    (GTree.node .join (.node .optional .null .null)
        (.node (.word ['b']) .null .null)) ≠
      .node .join (.node (.word ['a']) .null .null)
        (.node (.word ['b']) .null .null) := by
  decide

/-- From `generic_programming::evaluate`: an individual's fitness is the
sum of `grammer::evaluate` over every corpus line. -/
def gp_evaluate (input_list : List (List Char)) (t : GTree) : ℚ :=
  (input_list.map (fun s => t.evaluate s)).sum

/-- From `generic_programming::update`: score every individual, sort by
fitness descending, copy the top `floor(elite_ratio * n)` individuals,
append `floor(mutation_ratio * n)` mutation offspring, fill the remaining
slots up to `n` with crossover offspring, and canonicalize every member
of the new generation with `optimize_tree`.  The per-slot stochastic
constructions (rank selection, cloning, the mutation slot, crossover) are
abstracted as the oracles `mutOff` and `crossOff` giving the individual
produced for each slot index; only the slot bookkeeping of `update` is
modelled here, which is what the population-size claim is about. -/
def update_population (input_list : List (List Char))
    (grammer_list : List GTree) (elite_ratio mutation_ratio : ℚ)
    (mutOff crossOff : Nat → GTree) : List GTree :=
  let evaluated_grammers := (grammer_list.map
      (fun g => (g, gp_evaluate input_list g))).mergeSort
        (fun a b => decide (b.2 ≤ a.2))
  let elite_number := (⌊elite_ratio * (grammer_list.length : ℚ)⌋).toNat
  let mutation_number := (⌊mutation_ratio * (grammer_list.length : ℚ)⌋).toNat
  let next1 := (evaluated_grammers.take elite_number).map Prod.fst
  let next2 := next1 ++ (List.range mutation_number).map mutOff
  let next3 := next2 ++
    (List.range (grammer_list.length - next2.length)).map crossOff
  next3.map optimize_tree

/-- A ratio at most 1 floors to at most the population size. -/
theorem floor_ratio_toNat_le (q : ℚ) (n : Nat) (h1 : q ≤ 1) :
    (⌊q * (n : ℚ)⌋).toNat ≤ n := by
  have hx : q * (n : ℚ) ≤ (n : ℚ) := by
    calc q * (n : ℚ) ≤ 1 * (n : ℚ) :=
          mul_le_mul_of_nonneg_right h1 (by positivity)
    _ = (n : ℚ) := one_mul _
  have h2 : ⌊q * (n : ℚ)⌋ ≤ ⌊(n : ℚ)⌋ := Int.floor_le_floor hx
  rw [Int.floor_natCast] at h2
  exact Int.toNat_le.mpr h2

/-- C4 (amended): one generation step produces
`max n (floor(elite_ratio*n) + floor(mutation_ratio*n))` individuals: the
crossover loop only runs while the new generation is still smaller than
`n`, so whenever elites and mutants together already exceed `n` (which
ratios in `[0,1]` allow, e.g. both equal to 1) the population grows; the
size is exactly `n` iff `floor(elite_ratio*n) + floor(mutation_ratio*n)
≤ n`. -/
theorem c4_update_amended (input_list : List (List Char))
    (grammer_list : List GTree) (eR mR : ℚ) (mutOff crossOff : Nat → GTree)
    (h1e : eR ≤ 1) :
    (update_population input_list grammer_list eR mR mutOff crossOff).length =
      max grammer_list.length
        ((⌊eR * (grammer_list.length : ℚ)⌋).toNat +
          (⌊mR * (grammer_list.length : ℚ)⌋).toNat) ∧
    ((⌊eR * (grammer_list.length : ℚ)⌋).toNat +
        (⌊mR * (grammer_list.length : ℚ)⌋).toNat ≤ grammer_list.length →
      (update_population input_list grammer_list eR mR mutOff
        crossOff).length = grammer_list.length) := by
  have he := floor_ratio_toNat_le eR grammer_list.length h1e
  simp only [update_population, List.length_map, List.length_append,
    List.length_take, List.length_range, List.length_mergeSort]
  constructor
  · omega
  · intro h
    omega

/-- C4 (witness): the amended theorem at a population of 3 literal trees
with both ratios 1/2: the floors are 1 and 1, their sum stays at most 3,
and the next generation again has 3 individuals. -/
theorem c4_update_amended_witness :
    (update_population [] (List.replicate 3 (GTree.node (.word ['p'])
        .null .null)) (1/2) (1/2) (fun _ => GTree.null)
        (fun _ => GTree.null)).length =
      max (List.replicate 3 (GTree.node (.word ['p']) .null .null)).length
        ((⌊(1/2 : ℚ) * ((List.replicate 3 (GTree.node (.word ['p'])
            .null .null)).length : ℚ)⌋).toNat +
          (⌊(1/2 : ℚ) * ((List.replicate 3 (GTree.node (.word ['p'])
            .null .null)).length : ℚ)⌋).toNat) ∧
    ((⌊(1/2 : ℚ) * ((List.replicate 3 (GTree.node (.word ['p'])
        .null .null)).length : ℚ)⌋).toNat +
      (⌊(1/2 : ℚ) * ((List.replicate 3 (GTree.node (.word ['p'])
        .null .null)).length : ℚ)⌋).toNat ≤
        (List.replicate 3 (GTree.node (.word ['p']) .null .null)).length →
      (update_population [] (List.replicate 3 (GTree.node (.word ['p'])
        .null .null)) (1/2) (1/2) (fun _ => GTree.null)
        (fun _ => GTree.null)).length =
      (List.replicate 3 (GTree.node (.word ['p']) .null .null)).length) :=
  c4_update_amended [] (List.replicate 3 (GTree.node (.word ['p'])
    .null .null)) (1/2) (1/2) (fun _ => GTree.null) (fun _ => GTree.null)
    (by norm_num)

/-- Recognizes the marker tree used to count crossover offspring in the
C4 counterexample. -/
def is_cross_marker : GTree → Bool := fun t =>
  match t with
  | .node (.word ['c']) _ _ => true
  | _ => false

theorem countP_replicate {α : Type} (p : α → Bool) (n : Nat) (a : α) :
    (List.replicate n a).countP p = if p a then n else 0 := by
  induction n with
  | zero => simp
  | succ n ih =>
    cases hpa : p a <;>
      simp [List.replicate_succ, List.countP_cons, ih, hpa]

/-- C4 (counterexample): with `elite_ratio = mutation_ratio = 0.05` and
population 100 — the example configuration named by the claim — elitism
fills 5 slots and mutation another 5, so the crossover loop fills
`100 - 10 = 90` slots, not the claimed 95 (the total of 100 still
holds). -/
theorem c4_update_counterexample :
    (update_population [] (List.replicate 100 (GTree.node (.word ['p'])
        .null .null)) (1/20) (1/20)
        (fun _ => GTree.node (.word ['m']) .null .null)
        (fun _ => GTree.node (.word ['c']) .null .null)).countP
      is_cross_marker = 90 ∧
    (90 : Nat) ≠ 95 ∧
    (update_population [] (List.replicate 100 (GTree.node (.word ['p'])
        .null .null)) (1/20) (1/20)
        (fun _ => GTree.node (.word ['m']) .null .null)
        (fun _ => GTree.node (.word ['c']) .null .null)).length = 100 := by
  have hmap : (List.replicate 100 (GTree.node (.word ['p'])
      .null .null)).map (fun g => (g, gp_evaluate [] g)) =
      List.replicate 100 (GTree.node (.word ['p']) .null .null, (0 : ℚ)) := by
    simp [gp_evaluate]
  have hsort : ((List.replicate 100 (GTree.node (.word ['p'])
      .null .null, (0 : ℚ))).mergeSort
        (fun a b => decide (b.2 ≤ a.2))) =
      List.replicate 100 (GTree.node (.word ['p']) .null .null, (0 : ℚ)) := by
    apply List.eq_replicate.mpr
    refine ⟨List.length_mergeSort _, fun b hb => ?_⟩
    rw [List.mem_mergeSort] at hb
    exact List.eq_of_mem_replicate hb
  have hfloor : (⌊(1/20 : ℚ) * (((List.replicate 100 (GTree.node
      (.word ['p']) .null .null)).length : Nat) : ℚ)⌋).toNat = 5 := by
    norm_num
    rfl
  simp only [update_population, hmap, hsort, hfloor,
    List.length_replicate]
  rw [List.take_replicate]
  norm_num
  decide

end Grammergen
